import Mathlib

/-!
Verification of the segmentation engine of music-pdf-toolkit.

The definitions below are a shallow embedding of `src/main.js` of the
splitter application: the split data model, the edit-session operations
(`window.mergeWithPrevious`, `window.mergeWithNext`,
`handleInstrumentNameChange`) and the filename deriver
(`generateFilename`).  JavaScript arrays become `List`, in-place splices
become `List.set`/`List.eraseIdx`, and the guard-protected early returns
(and the `TypeError`s thrown on out-of-range accesses, which abort before
any mutation) are both modelled by returning `none`: a `none` result means
the session state is left exactly as it was.  The opaque PDF blob held in
each `generatedPDFs` entry is abstracted by a type parameter `α` together
with a regeneration function `regen : Split → α` standing for
`regeneratePDFForSplit`'s per-split output.  Character classes of the
JavaScript regexes (`\w`, `\s`) are modelled over their ASCII range.
-/

namespace MusicPdf

/-- A resolved per-page label: page index, instrument text, and whether the
catalog matching cleared the threshold. -/
structure ResolvedLabel where
  pageIndex : Nat
  instrument : String
  matched : Bool
deriving DecidableEq, Repr

/-- A split: a run of pages attributed to one instrument, as produced by the
analyzer and edited in `main.js` (`detectedSplits` entries). -/
structure Split where
  instrument : String
  startPage : Nat
  endPage : Nat
  pages : List Nat
deriving DecidableEq, Repr

/-- ASCII reading of the JavaScript regex class `\w` used in
`generateFilename`: letters, digits and the underscore. -/
def isWordChar (c : Char) : Bool :=
  c.isAlphanum || c == '_'

/-- ASCII reading of the JavaScript regex class `\s`: space, tab, newline,
carriage return, vertical tab and form feed. -/
def isJsSpace (c : Char) : Bool :=
  c == ' ' || c == '\t' || c == '\n' || c == '\r' || c == '\x0b' || c == '\x0c'

/-- Replace every maximal run of characters satisfying `p` by the single
character `rep`; models a global JavaScript `replace(/p+/g, rep)`. -/
def collapseRuns (p : Char → Bool) (rep : Char) : List Char → List Char
  | [] => []
  | c :: rest =>
    if p c then
      match rest with
      | [] => [rep]
      | d :: _ => if p d then collapseRuns p rep rest else rep :: collapseRuns p rep rest
    else c :: collapseRuns p rep rest

/-- Embedding of `generateFilename(base, instrument)` from `src/main.js`:
drop every character outside `[\w\s-]`, turn each whitespace run into one
hyphen, collapse hyphen runs, and append to `base` with a `.pdf` suffix. -/
def generateFilename (base instrument : String) : String :=
  let s1 := instrument.toList.filter fun c => isWordChar c || isJsSpace c || c == '-'
  let s2 := collapseRuns isJsSpace '-' s1
  let s3 := collapseRuns (fun c => c == '-') '-' s2
  base ++ "-" ++ String.mk s3 ++ ".pdf"

/-- The filename rule exactly as the specification words it: keep only
characters that are alphanumeric, whitespace, or the hyphen (the
underscore is NOT kept), then the same run replacements. -/
def deriveFilenameSpec (base instrument : String) : String :=
  let s1 := instrument.toList.filter fun c => c.isAlphanum || isJsSpace c || c == '-'
  let s2 := collapseRuns isJsSpace '-' s1
  let s3 := collapseRuns (fun c => c == '-') '-' s2
  base ++ "-" ++ String.mk s3 ++ ".pdf"

/-- The amended filename rule: like `deriveFilenameSpec` but the kept
alphabet also contains the underscore, matching the `\w` class the code
actually uses. -/
def deriveFilenameAmended (base instrument : String) : String :=
  let s1 := instrument.toList.filter fun c => c.isAlphanum || c == '_' || isJsSpace c || c == '-'
  let s2 := collapseRuns isJsSpace '-' s1
  let s3 := collapseRuns (fun c => c == '-') '-' s2
  base ++ "-" ++ String.mk s3 ++ ".pdf"

/-- Embedding of `window.mergeWithPrevious(index)` together with the
`generatedPDFs` bookkeeping: at `index = 0` the function returns early
(`none`); otherwise the previous split absorbs the current one's pages,
takes its `endPage`, the entry at `index` is spliced out of both arrays,
and `regeneratePDFForSplit(index - 1)` refreshes the merged output. -/
def mergeWithPrevious {α : Type} (regen : Split → α) (splits : List Split)
    (outs : List α) (index : Nat) : Option (List Split × List α) :=
  if index = 0 then none
  else
    match splits[index - 1]?, splits[index]? with
    | some previousSplit, some currentSplit =>
      let merged : Split :=
        { previousSplit with
            pages := previousSplit.pages ++ currentSplit.pages
            endPage := currentSplit.endPage }
      some ((splits.set (index - 1) merged).eraseIdx index,
            (outs.eraseIdx index).set (index - 1) (regen merged))
    | _, _ => none

/-- Embedding of `window.mergeWithNext(index)`: at the last index the
function returns early (`none`); otherwise the split at `index` absorbs the
next one's pages, adopts its instrument and `endPage`, the entry at
`index + 1` is spliced out of both arrays, and
`regeneratePDFForSplit(index)` refreshes the merged output. -/
def mergeWithNext {α : Type} (regen : Split → α) (splits : List Split)
    (outs : List α) (index : Nat) : Option (List Split × List α) :=
  if index + 1 = splits.length then none
  else
    match splits[index]?, splits[index + 1]? with
    | some currentSplit, some nextSplit =>
      let merged : Split :=
        { instrument := nextSplit.instrument
          startPage := currentSplit.startPage
          endPage := nextSplit.endPage
          pages := currentSplit.pages ++ nextSplit.pages }
      some ((splits.set index merged).eraseIdx (index + 1),
            (outs.eraseIdx (index + 1)).set index (regen merged))
    | _, _ => none

/-- Model of the JavaScript `String.prototype.trim` (ASCII whitespace):
drop leading and trailing whitespace characters. -/
def jsTrim (s : String) : String :=
  String.mk (((s.toList.dropWhile isJsSpace).reverse.dropWhile isJsSpace).reverse)

/-- Embedding of `handleInstrumentNameChange`: trim the input value; when
the trimmed name is non-empty, store it in the split at `index` and refresh
that split's generated output; when it trims to empty, do nothing. -/
def handleInstrumentNameChange {α : Type} (regen : Split → α)
    (splits : List Split) (outs : List α) (index : Nat) (value : String) :
    Option (List Split × List α) :=
  let newName := jsTrim value
  if newName = "" then none
  else
    match splits[index]? with
    | some s =>
      let s1 : Split := { s with instrument := newName }
      some (splits.set index s1, outs.set index (regen s1))
    | none => none

/-- Modelled from the spec: the Label Resolver `resolve` of the analyzer
(`pdf-splitter.js`, not present under `src/`).  The catalog fuzzy-matching
step is abstracted by `matchCatalog` (returning the canonical name when the
similarity threshold is cleared) and the text normalization by `normalize`;
the rest follows the spec word for word: a matched raw text yields the
canonical name with `matched = true`; an unmatched raw text yields the
normalized raw text with `matched = false`; an absent raw text inherits
instrument and matched flag from the previous resolved page, and on the
very first page (no previous) yields `instrument = ""`, unmatched. -/
def resolve (matchCatalog : String → Option String) (normalize : String → String)
    (raw : Option String) (previousResolved : Option ResolvedLabel)
    (pageIndex : Nat) : ResolvedLabel :=
  match raw with
  | some r =>
    match matchCatalog r with
    | some canonicalName => ⟨pageIndex, canonicalName, true⟩
    | none => ⟨pageIndex, normalize r, false⟩
  | none =>
    match previousResolved with
    | some prev => ⟨pageIndex, prev.instrument, prev.matched⟩
    | none => ⟨pageIndex, "", false⟩

/-- Modelled from the spec: resolving a whole document page by page, feeding
each page's resolved label to the next page as `previousResolved`; pages are
numbered from `start`. -/
def resolvePages (matchCatalog : String → Option String)
    (normalize : String → String) :
    Nat → Option ResolvedLabel → List (Option String) → List ResolvedLabel
  | _, _, [] => []
  | i, prev, raw :: rest =>
    let rl := resolve matchCatalog normalize raw prev i
    rl :: resolvePages matchCatalog normalize (i + 1) (some rl) rest

/-- Modelled from the spec: resolve all pages of a document, 1-indexed, with
no previous label for the first page. -/
def resolveAll (matchCatalog : String → Option String)
    (normalize : String → String) (raws : List (Option String)) :
    List ResolvedLabel :=
  resolvePages matchCatalog normalize 1 none raws

/-- Modelled from the spec: the accumulating loop of the Segmenter.  `cur` is
the split currently being accumulated; a label whose instrument equals the
open split's instrument extends it, any other label closes it and opens a
fresh single-page split. -/
def segmentAux (cur : Split) : List ResolvedLabel → List Split
  | [] => [cur]
  | l :: rest =>
    if l.instrument = cur.instrument then
      segmentAux { cur with pages := cur.pages ++ [l.pageIndex], endPage := l.pageIndex } rest
    else
      cur :: segmentAux ⟨l.instrument, l.pageIndex, l.pageIndex, [l.pageIndex]⟩ rest

/-- Modelled from the spec: the Segmenter of the analyzer
(`pdf-splitter.js`, not present under `src/`): a single left-to-right pass
over the resolved labels, starting a new split exactly where the instrument
string differs from the open split's instrument (exact, case-sensitive
equality). -/
def segment : List ResolvedLabel → List Split
  | [] => []
  | l :: rest => segmentAux ⟨l.instrument, l.pageIndex, l.pageIndex, [l.pageIndex]⟩ rest

/-- Per-page instrument attribution of a split list: each split contributes
its instrument once per page it owns, in page order. -/
def pageLabels (splits : List Split) : List String :=
  (splits.map fun s => s.pages.map fun _ => s.instrument).flatten

/-- Decides that a list of page numbers is contiguous: every element is the
predecessor's successor. -/
def contiguousB : List Nat → Bool
  | a :: b :: rest => (b == a + 1) && contiguousB (b :: rest)
  | _ => true

/-- Well-formedness of one split: non-empty contiguous pages, with
`startPage` and `endPage` the first and last page. -/
def splitWfB (s : Split) : Bool :=
  !s.pages.isEmpty && contiguousB s.pages &&
    s.startPage == s.pages.headD 0 && s.endPage == s.pages.getLastD 0

/-- The session coverage invariant: every split is well formed and the
splits' pages, concatenated in order, are exactly `1, ..., n`. -/
def sessionWfB (splits : List Split) (n : Nat) : Bool :=
  splits.all splitWfB && (splits.map Split.pages).flatten == List.range' 1 n

/-- Demo catalog matcher used in concrete instances below: recognizes two
instruments and maps each to itself as canonical name. -/
def demoCatalog (s : String) : Option String :=
  if s = "Cornet" || s = "Trombone" then some s else none

/-! Helper lemmas about list indexing on spliced lists. -/

theorem getElem?_append_cons_self {β : Type} (A B : List β) (x : β) :
    (A ++ x :: B)[A.length]? = some x := by
  rw [List.getElem?_append_right (Nat.le_refl _)]
  simp

theorem getElem?_append_cons_shift {β : Type} (A B : List β) (x : β) (k : Nat) :
    (A ++ x :: B)[A.length + 1 + k]? = B[k]? := by
  rw [List.getElem?_append_right (by omega)]
  have h : A.length + 1 + k - A.length = k + 1 := by omega
  rw [h, List.getElem?_cons_succ]

/-- Splicing decomposition: when positions `i` and `i + 1` of `l` hold `a`
and `b`, the list splits as `take i ++ a :: b :: drop (i+2)`, and both the
set-then-erase update used on `detectedSplits` and the erase-then-set update
used on `generatedPDFs` replace the pair `a, b` by the single element `x`. -/
theorem splice_decomp {β : Type} (i : Nat) (l : List β) (a b x : β)
    (ha : l[i]? = some a) (hb : l[i + 1]? = some b) :
    l = l.take i ++ a :: b :: l.drop (i + 2) ∧
      (l.set i x).eraseIdx (i + 1) = l.take i ++ x :: l.drop (i + 2) ∧
      (l.eraseIdx (i + 1)).set i x = l.take i ++ x :: l.drop (i + 2) ∧
      (l.take i).length = i := by
  induction i generalizing l with
  | zero =>
    cases l with
    | nil => simp at ha
    | cons c l' =>
      cases l' with
      | nil => simp at hb
      | cons d l'' =>
        simp at ha hb
        subst ha hb
        refine ⟨rfl, rfl, ?_, rfl⟩
        simp [List.eraseIdx]
  | succ i ih =>
    cases l with
    | nil => simp at ha
    | cons c l' =>
      rw [List.getElem?_cons_succ] at ha hb
      obtain ⟨hdec, hset, herase, hlen⟩ := ih l' ha hb
      refine ⟨?_, ?_, ?_, ?_⟩
      · conv_lhs => rw [show c :: l' = c :: (l'.take i ++ a :: b :: l'.drop (i + 2)) from by rw [← hdec]]
        simp [List.take_succ_cons, List.drop_succ_cons]
      · simpa [List.set_cons_succ, List.eraseIdx_cons_succ, List.take_succ_cons,
          List.drop_succ_cons] using hset
      · simpa [List.set_cons_succ, List.eraseIdx_cons_succ, List.take_succ_cons,
          List.drop_succ_cons] using herase
      · simpa [List.take_succ_cons] using hlen

/-! Helper lemmas about contiguity. -/

theorem contiguousB_cons (a : Nat) (t : List Nat)
    (h : contiguousB (a :: t) = true) : contiguousB t = true := by
  cases t with
  | nil => rfl
  | cons b r =>
    rw [contiguousB, Bool.and_eq_true] at h
    exact h.2

theorem contiguousB_append_right (xs ys : List Nat)
    (h : contiguousB (xs ++ ys) = true) : contiguousB ys = true := by
  induction xs with
  | nil => exact h
  | cons a xs ih => exact ih (contiguousB_cons a _ h)

theorem contiguousB_append_left (xs ys : List Nat)
    (h : contiguousB (xs ++ ys) = true) : contiguousB xs = true := by
  induction xs with
  | nil => rfl
  | cons a xs ih =>
    cases xs with
    | nil => rfl
    | cons b xs' =>
      rw [List.cons_append, List.cons_append, contiguousB, Bool.and_eq_true] at h
      rw [contiguousB, Bool.and_eq_true]
      exact ⟨h.1, ih h.2⟩

theorem contiguousB_middle (A X B : List Nat)
    (h : contiguousB (A ++ (X ++ B)) = true) : contiguousB X = true :=
  contiguousB_append_left X B (contiguousB_append_right A (X ++ B) h)

theorem contiguousB_range' (a n : Nat) : contiguousB (List.range' a n) = true := by
  induction n generalizing a with
  | zero => rfl
  | succ n ih =>
    rw [List.range'_succ]
    cases n with
    | zero => rfl
    | succ m =>
      rw [List.range'_succ, contiguousB, Bool.and_eq_true]
      refine ⟨by simp, ?_⟩
      rw [← List.range'_succ]
      exact ih (a + 1)

/-! Helper lemmas about first and last elements of appended lists. -/

theorem headD_append_of_ne_nil {β : Type} (xs ys : List β) (d : β)
    (h : xs ≠ []) : (xs ++ ys).headD d = xs.headD d := by
  cases xs with
  | nil => exact absurd rfl h
  | cons a t => rfl

theorem getLastD_append_of_ne_nil {β : Type} (xs ys : List β) (d : β)
    (h : ys ≠ []) : (xs ++ ys).getLastD d = ys.getLastD d := by
  rw [List.getLastD_eq_getLast?, List.getLastD_eq_getLast?, List.getLast?_append]
  obtain ⟨v, hv⟩ := Option.isSome_iff_exists.mp (List.getLast?_isSome.mpr h)
  rw [hv]
  rfl

/-! Unfolding the well-formedness predicates to propositions. -/

theorem splitWfB_iff (s : Split) :
    splitWfB s = true ↔
      s.pages ≠ [] ∧ contiguousB s.pages = true ∧
        s.startPage = s.pages.headD 0 ∧ s.endPage = s.pages.getLastD 0 := by
  simp [splitWfB, and_assoc]

theorem sessionWfB_iff (splits : List Split) (n : Nat) :
    sessionWfB splits n = true ↔
      (∀ s ∈ splits, splitWfB s = true) ∧
        (splits.map Split.pages).flatten = List.range' 1 n := by
  simp [sessionWfB]

/-- Core preservation argument shared by both merge directions: replacing an
adjacent pair of splits `p, c` by a single split carrying `p`'s start page,
`c`'s end page and the concatenated pages keeps the session invariant. -/
theorem sessionWf_merge_core (A B : List Split) (p c : Split) (n : Nat)
    (instr : String)
    (h : sessionWfB (A ++ p :: c :: B) n = true) :
    sessionWfB
      (A ++ { instrument := instr, startPage := p.startPage,
              endPage := c.endPage, pages := p.pages ++ c.pages } :: B) n = true := by
  rw [sessionWfB_iff] at h
  obtain ⟨hall, hcov⟩ := h
  have hp : splitWfB p = true := hall p (by simp)
  have hc : splitWfB c = true := hall c (by simp)
  rw [splitWfB_iff] at hp hc
  have hcontig : contiguousB (p.pages ++ c.pages) = true := by
    apply contiguousB_middle (A.map Split.pages).flatten (p.pages ++ c.pages)
      (B.map Split.pages).flatten
    have h2 : (A.map Split.pages).flatten ++
        ((p.pages ++ c.pages) ++ (B.map Split.pages).flatten) = List.range' 1 n := by
      rw [← hcov]
      simp [List.append_assoc]
    rw [h2]
    exact contiguousB_range' 1 n
  rw [sessionWfB_iff]
  constructor
  · intro s hs
    rw [List.mem_append, List.mem_cons] at hs
    rcases hs with hs | hs | hs
    · exact hall s (by simp [hs])
    · subst hs
      rw [splitWfB_iff]
      refine ⟨by simp [hp.1], hcontig, ?_, ?_⟩
      · show p.startPage = (p.pages ++ c.pages).headD 0
        rw [headD_append_of_ne_nil p.pages c.pages 0 hp.1]
        exact hp.2.2.1
      · show c.endPage = (p.pages ++ c.pages).getLastD 0
        rw [getLastD_append_of_ne_nil p.pages c.pages 0 hc.1]
        exact hc.2.2.2
    · exact hall s (by simp [hs])
  · rw [← hcov]
    simp [List.append_assoc]

/-! Inversion lemmas: what a successful merge tells us. -/

theorem mergeWithPrevious_some {α : Type} {regen : Split → α}
    {splits : List Split} {outs : List α} {index : Nat}
    {res : List Split × List α}
    (h : mergeWithPrevious regen splits outs index = some res) :
    ∃ p c, index ≠ 0 ∧ splits[index - 1]? = some p ∧ splits[index]? = some c ∧
      res.1 = (splits.set (index - 1)
        { p with pages := p.pages ++ c.pages, endPage := c.endPage }).eraseIdx index ∧
      res.2 = (outs.eraseIdx index).set (index - 1)
        (regen { p with pages := p.pages ++ c.pages, endPage := c.endPage }) := by
  rw [mergeWithPrevious] at h
  split at h
  · exact absurd h (by simp)
  · rename_i hne
    cases hp : splits[index - 1]? with
    | none => rw [hp] at h; simp at h
    | some p =>
      cases hc : splits[index]? with
      | none => rw [hp, hc] at h; simp at h
      | some c =>
        rw [hp, hc] at h
        simp only [Option.some.injEq] at h
        exact ⟨p, c, hne, rfl, rfl, by rw [← h], by rw [← h]⟩

theorem mergeWithNext_some {α : Type} {regen : Split → α}
    {splits : List Split} {outs : List α} {index : Nat}
    {res : List Split × List α}
    (h : mergeWithNext regen splits outs index = some res) :
    ∃ c nx, index + 1 ≠ splits.length ∧ splits[index]? = some c ∧
      splits[index + 1]? = some nx ∧
      res.1 = (splits.set index
        ⟨nx.instrument, c.startPage, nx.endPage, c.pages ++ nx.pages⟩).eraseIdx (index + 1) ∧
      res.2 = (outs.eraseIdx (index + 1)).set index
        (regen ⟨nx.instrument, c.startPage, nx.endPage, c.pages ++ nx.pages⟩) := by
  rw [mergeWithNext] at h
  split at h
  · exact absurd h (by simp)
  · rename_i hne
    cases hc : splits[index]? with
    | none => rw [hc] at h; simp at h
    | some c =>
      cases hn : splits[index + 1]? with
      | none => rw [hc, hn] at h; simp at h
      | some nx =>
        rw [hc, hn] at h
        simp only [Option.some.injEq] at h
        exact ⟨c, nx, hne, rfl, rfl, by rw [← h], by rw [← h]⟩

theorem getElem?_two_cons_shift {β : Type} (A B : List β) (a b : β) (k : Nat) :
    (A ++ a :: b :: B)[A.length + 2 + k]? = B[k]? := by
  have h := getElem?_append_cons_shift A (b :: B) a (k + 1)
  rw [List.getElem?_cons_succ] at h
  have e : A.length + 2 + k = A.length + 1 + (k + 1) := by omega
  rw [e]
  exact h

/-- Forward evaluation of a valid `mergeWithPrevious`: the split list becomes
`take (index-1) ++ merged :: drop (index+1)` and the output list is spliced
and refreshed accordingly. -/
theorem mergeWithPrevious_eq {α : Type} (regen : Split → α)
    (splits : List Split) (outs : List α) (index : Nat) (prev cur : Split)
    (hpos : 0 < index)
    (hp : splits[index - 1]? = some prev) (hc : splits[index]? = some cur) :
    mergeWithPrevious regen splits outs index =
      some (splits.take (index - 1) ++
              ⟨prev.instrument, prev.startPage, cur.endPage, prev.pages ++ cur.pages⟩ ::
              splits.drop (index + 1),
            (outs.eraseIdx index).set (index - 1)
              (regen ⟨prev.instrument, prev.startPage, cur.endPage, prev.pages ++ cur.pages⟩)) := by
  have hidx : index - 1 + 1 = index := Nat.succ_pred_eq_of_pos hpos
  have hb : splits[index - 1 + 1]? = some cur := by rw [hidx]; exact hc
  obtain ⟨-, hset, -, -⟩ :=
    splice_decomp (index - 1) splits prev cur
      ⟨prev.instrument, prev.startPage, cur.endPage, prev.pages ++ cur.pages⟩ hp hb
  rw [hidx] at hset
  have h2 : index - 1 + 2 = index + 1 := by omega
  rw [h2] at hset
  rw [mergeWithPrevious, if_neg (Nat.pos_iff_ne_zero.mp hpos), hp, hc]
  simp only [hset]

/-- Forward evaluation of a valid `mergeWithNext`. -/
theorem mergeWithNext_eq {α : Type} (regen : Split → α)
    (splits : List Split) (outs : List α) (index : Nat) (cur nx : Split)
    (hc : splits[index]? = some cur) (hn : splits[index + 1]? = some nx) :
    mergeWithNext regen splits outs index =
      some (splits.take index ++
              ⟨nx.instrument, cur.startPage, nx.endPage, cur.pages ++ nx.pages⟩ ::
              splits.drop (index + 2),
            (outs.eraseIdx (index + 1)).set index
              (regen ⟨nx.instrument, cur.startPage, nx.endPage, cur.pages ++ nx.pages⟩)) := by
  obtain ⟨-, hset, -, -⟩ :=
    splice_decomp index splits cur nx
      ⟨nx.instrument, cur.startPage, nx.endPage, cur.pages ++ nx.pages⟩ hc hn
  have hne : ¬ index + 1 = splits.length := by
    intro he
    have : splits[index + 1]? = none := by
      rw [List.getElem?_eq_none]
      omega
    rw [this] at hn
    exact Option.noConfusion hn
  rw [mergeWithNext, if_neg hne, hc, hn]
  simp only [hset]

/-- C1 counterexample: the spec's sanitization alphabet (alphanumeric,
whitespace, hyphen) disagrees with the code's regex class `\w`, which also
keeps the underscore: on instrument `"a_b"` the code keeps the underscore
while the spec rule strips it. -/
theorem generateFilename_underscore_cex :
    generateFilename "X" "a_b" = "X-a_b.pdf" ∧
      deriveFilenameSpec "X" "a_b" = "X-ab.pdf" ∧
      generateFilename "X" "a_b" ≠ deriveFilenameSpec "X" "a_b" :=
  ⟨by decide, by decide, by decide⟩

/-- C1 (amended): for every base and instrument, `generateFilename` equals
the spec's pipeline with the kept alphabet corrected to alphanumeric,
underscore, whitespace, or hyphen; and the spec's worked example
`deriveFilename("MyBand", "1st Horn (Eb)!") = "MyBand-1st-Horn-Eb.pdf"`
holds. -/
theorem generateFilename_correct :
    (∀ base instrument,
        generateFilename base instrument = deriveFilenameAmended base instrument) ∧
      generateFilename "MyBand" "1st Horn (Eb)!" = "MyBand-1st-Horn-Eb.pdf" := by
  constructor
  · intro base instrument
    simp only [generateFilename, deriveFilenameAmended]
    have h : instrument.toList.filter (fun c => isWordChar c || isJsSpace c || c == '-') =
        instrument.toList.filter (fun c => c.isAlphanum || c == '_' || isJsSpace c || c == '-') :=
      List.filter_congr (fun c _ => by simp [isWordChar, Bool.or_assoc])
    rw [h]
  · decide

/-- C2: for a valid index `0 < index` (with splits present at `index - 1`
and `index`), `mergeWithPrevious` succeeds and produces at `index - 1` a
split keeping the previous split's instrument and start page, whose pages
are the previous pages followed by the current pages and whose `endPage` is
the old `splits[index].endPage`; the split originally at `index` is removed
(every higher split shifts down by one and the length drops by one).  In
particular merging `[{Cornet 1, pages 1-2}, {Cornet 2, pages 3-4}]` at
index 1 yields the single split `{Cornet 1, pages 1-4}`. -/
theorem mergeWithPrevious_correct {α : Type} (regen : Split → α)
    (splits : List Split) (outs : List α) (index : Nat) (prev cur : Split)
    (hpos : 0 < index)
    (hp : splits[index - 1]? = some prev) (hc : splits[index]? = some cur) :
    ∃ splits' outs',
      mergeWithPrevious regen splits outs index = some (splits', outs') ∧
        splits'[index - 1]? =
          some ⟨prev.instrument, prev.startPage, cur.endPage, prev.pages ++ cur.pages⟩ ∧
        splits'.length + 1 = splits.length ∧
        (∀ j, index ≤ j → splits'[j]? = splits[j + 1]?) ∧
        mergeWithPrevious (fun _ => ()) [⟨"Cornet 1", 1, 2, [1, 2]⟩, ⟨"Cornet 2", 3, 4, [3, 4]⟩]
          [(), ()] 1 = some ([⟨"Cornet 1", 1, 4, [1, 2, 3, 4]⟩], [()]) := by
  have hidx : index - 1 + 1 = index := Nat.succ_pred_eq_of_pos hpos
  have hb : splits[index - 1 + 1]? = some cur := by rw [hidx]; exact hc
  obtain ⟨hdec, -, -, hlen⟩ :=
    splice_decomp (index - 1) splits prev cur
      ⟨prev.instrument, prev.startPage, cur.endPage, prev.pages ++ cur.pages⟩ hp hb
  have h2 : index - 1 + 2 = index + 1 := by omega
  rw [h2] at hdec
  refine ⟨splits.take (index - 1) ++
      ⟨prev.instrument, prev.startPage, cur.endPage, prev.pages ++ cur.pages⟩ ::
      splits.drop (index + 1),
    (outs.eraseIdx index).set (index - 1)
      (regen ⟨prev.instrument, prev.startPage, cur.endPage, prev.pages ++ cur.pages⟩),
    mergeWithPrevious_eq regen splits outs index prev cur hpos hp hc, ?_, ?_, ?_, by decide⟩
  · have h := getElem?_append_cons_self (splits.take (index - 1))
      (splits.drop (index + 1))
      (⟨prev.instrument, prev.startPage, cur.endPage, prev.pages ++ cur.pages⟩ : Split)
    rw [hlen] at h
    exact h
  · have hl : splits.length =
        (splits.take (index - 1)).length + ((splits.drop (index + 1)).length + 2) := by
      conv_lhs => rw [hdec]
      simp [List.length_append]
    simp only [List.length_append, List.length_cons]
    omega
  · intro j hj
    have hL : (splits.take (index - 1) ++
        (⟨prev.instrument, prev.startPage, cur.endPage, prev.pages ++ cur.pages⟩ : Split) ::
        splits.drop (index + 1))[j]? = (splits.drop (index + 1))[j - index]? := by
      have h := getElem?_append_cons_shift (splits.take (index - 1)) (splits.drop (index + 1))
        (⟨prev.instrument, prev.startPage, cur.endPage, prev.pages ++ cur.pages⟩ : Split)
        (j - index)
      rw [hlen] at h
      have e : index - 1 + 1 + (j - index) = j := by omega
      rw [e] at h
      exact h
    have hR : (splits.take (index - 1) ++ prev :: cur :: splits.drop (index + 1))[j + 1]? =
        (splits.drop (index + 1))[j - index]? := by
      have h := getElem?_two_cons_shift (splits.take (index - 1)) (splits.drop (index + 1))
        prev cur (j - index)
      rw [hlen] at h
      have e : index - 1 + 2 + (j - index) = j + 1 := by omega
      rw [e] at h
      exact h
    rw [hL]
    conv_rhs => rw [hdec]
    exact hR.symm

/-- C3: for a valid index (splits present at `index` and `index + 1`),
`mergeWithNext` succeeds and the split at `index` adopts the next split's
instrument, keeps its own start page, takes pages equal to its own pages
followed by the next split's pages and `endPage` equal to the old
`splits[index+1].endPage`; the split at `index + 1` is removed.  In
particular merging `[{Cornet 1, pages 1-2}, {Cornet 2, pages 3-4}]` at
index 0 yields the single split `{Cornet 2, pages 1-4}`. -/
theorem mergeWithNext_correct {α : Type} (regen : Split → α)
    (splits : List Split) (outs : List α) (index : Nat) (cur nx : Split)
    (hc : splits[index]? = some cur) (hn : splits[index + 1]? = some nx) :
    ∃ splits' outs',
      mergeWithNext regen splits outs index = some (splits', outs') ∧
        splits'[index]? =
          some ⟨nx.instrument, cur.startPage, nx.endPage, cur.pages ++ nx.pages⟩ ∧
        splits'.length + 1 = splits.length ∧
        (∀ j, index + 1 ≤ j → splits'[j]? = splits[j + 1]?) ∧
        mergeWithNext (fun _ => ()) [⟨"Cornet 1", 1, 2, [1, 2]⟩, ⟨"Cornet 2", 3, 4, [3, 4]⟩]
          [(), ()] 0 = some ([⟨"Cornet 2", 1, 4, [1, 2, 3, 4]⟩], [()]) := by
  obtain ⟨hdec, -, -, hlen⟩ :=
    splice_decomp index splits cur nx
      ⟨nx.instrument, cur.startPage, nx.endPage, cur.pages ++ nx.pages⟩ hc hn
  refine ⟨splits.take index ++
      ⟨nx.instrument, cur.startPage, nx.endPage, cur.pages ++ nx.pages⟩ ::
      splits.drop (index + 2),
    (outs.eraseIdx (index + 1)).set index
      (regen ⟨nx.instrument, cur.startPage, nx.endPage, cur.pages ++ nx.pages⟩),
    mergeWithNext_eq regen splits outs index cur nx hc hn, ?_, ?_, ?_, by decide⟩
  · have h := getElem?_append_cons_self (splits.take index) (splits.drop (index + 2))
      (⟨nx.instrument, cur.startPage, nx.endPage, cur.pages ++ nx.pages⟩ : Split)
    rw [hlen] at h
    exact h
  · have hl : splits.length =
        (splits.take index).length + ((splits.drop (index + 2)).length + 2) := by
      conv_lhs => rw [hdec]
      simp [List.length_append]
    simp only [List.length_append, List.length_cons]
    omega
  · intro j hj
    have hL : (splits.take index ++
        (⟨nx.instrument, cur.startPage, nx.endPage, cur.pages ++ nx.pages⟩ : Split) ::
        splits.drop (index + 2))[j]? = (splits.drop (index + 2))[j - index - 1]? := by
      have h := getElem?_append_cons_shift (splits.take index) (splits.drop (index + 2))
        (⟨nx.instrument, cur.startPage, nx.endPage, cur.pages ++ nx.pages⟩ : Split)
        (j - index - 1)
      rw [hlen] at h
      have e : index + 1 + (j - index - 1) = j := by omega
      rw [e] at h
      exact h
    have hR : (splits.take index ++ cur :: nx :: splits.drop (index + 2))[j + 1]? =
        (splits.drop (index + 2))[j - index - 1]? := by
      have h := getElem?_two_cons_shift (splits.take index) (splits.drop (index + 2))
        cur nx (j - index - 1)
      rw [hlen] at h
      have e : index + 2 + (j - index - 1) = j + 1 := by omega
      rw [e] at h
      exact h
    rw [hL]
    conv_rhs => rw [hdec]
    exact hR.symm

/-- Witness: `mergeWithPrevious_correct` applied to the spec's two-split
example at index 1. -/
theorem mergeWithPrevious_correct_witness :
    ∃ (splits' : List Split) (outs' : List Unit),
      mergeWithPrevious (fun _ => ()) [⟨"Cornet 1", 1, 2, [1, 2]⟩, ⟨"Cornet 2", 3, 4, [3, 4]⟩]
          [(), ()] 1 = some (splits', outs') ∧
        splits'[0]? = some ⟨"Cornet 1", 1, 4, [1, 2, 3, 4]⟩ ∧
        splits'.length + 1 =
          [(⟨"Cornet 1", 1, 2, [1, 2]⟩ : Split), ⟨"Cornet 2", 3, 4, [3, 4]⟩].length ∧
        (∀ j, 1 ≤ j → splits'[j]? =
          [(⟨"Cornet 1", 1, 2, [1, 2]⟩ : Split), ⟨"Cornet 2", 3, 4, [3, 4]⟩][j + 1]?) ∧
        mergeWithPrevious (fun _ => ()) [⟨"Cornet 1", 1, 2, [1, 2]⟩, ⟨"Cornet 2", 3, 4, [3, 4]⟩]
          [(), ()] 1 = some ([⟨"Cornet 1", 1, 4, [1, 2, 3, 4]⟩], [()]) :=
  mergeWithPrevious_correct (fun _ => ())
    [⟨"Cornet 1", 1, 2, [1, 2]⟩, ⟨"Cornet 2", 3, 4, [3, 4]⟩] [(), ()] 1
    ⟨"Cornet 1", 1, 2, [1, 2]⟩ ⟨"Cornet 2", 3, 4, [3, 4]⟩
    (by decide) (by decide) (by decide)

/-- Witness: `mergeWithNext_correct` applied to the spec's two-split example
at index 0. -/
theorem mergeWithNext_correct_witness :
    ∃ (splits' : List Split) (outs' : List Unit),
      mergeWithNext (fun _ => ()) [⟨"Cornet 1", 1, 2, [1, 2]⟩, ⟨"Cornet 2", 3, 4, [3, 4]⟩]
          [(), ()] 0 = some (splits', outs') ∧
        splits'[0]? = some ⟨"Cornet 2", 1, 4, [1, 2, 3, 4]⟩ ∧
        splits'.length + 1 =
          [(⟨"Cornet 1", 1, 2, [1, 2]⟩ : Split), ⟨"Cornet 2", 3, 4, [3, 4]⟩].length ∧
        (∀ j, 0 + 1 ≤ j → splits'[j]? =
          [(⟨"Cornet 1", 1, 2, [1, 2]⟩ : Split), ⟨"Cornet 2", 3, 4, [3, 4]⟩][j + 1]?) ∧
        mergeWithNext (fun _ => ()) [⟨"Cornet 1", 1, 2, [1, 2]⟩, ⟨"Cornet 2", 3, 4, [3, 4]⟩]
          [(), ()] 0 = some ([⟨"Cornet 2", 1, 4, [1, 2, 3, 4]⟩], [()]) :=
  mergeWithNext_correct (fun _ => ())
    [⟨"Cornet 1", 1, 2, [1, 2]⟩, ⟨"Cornet 2", 3, 4, [3, 4]⟩] [(), ()] 0
    ⟨"Cornet 1", 1, 2, [1, 2]⟩ ⟨"Cornet 2", 3, 4, [3, 4]⟩
    (by decide) (by decide)

theorem length_splice {β : Type} (A B : List β) (p c m : β) :
    (A ++ m :: B).length + 1 = (A ++ p :: c :: B).length := by
  simp [List.length_append]
  omega

/-- Index-level frame facts of replacing an adjacent pair by one element:
positions below the splice point are untouched, positions from `k + 1` on
shift down by one. -/
theorem splice_frame {β : Type} (A B : List β) (p c m : β) (k : Nat)
    (hk : A.length = k) :
    (∀ j, j < k → (A ++ m :: B)[j]? = (A ++ p :: c :: B)[j]?) ∧
      (∀ j, k + 1 ≤ j → (A ++ m :: B)[j]? = (A ++ p :: c :: B)[j + 1]?) := by
  subst hk
  constructor
  · intro j hj
    rw [List.getElem?_append_left hj, List.getElem?_append_left hj]
  · intro j hj
    have hL := getElem?_append_cons_shift A B m (j - A.length - 1)
    have e : A.length + 1 + (j - A.length - 1) = j := by omega
    rw [e] at hL
    have hR := getElem?_two_cons_shift A B p c (j - A.length - 1)
    have e2 : A.length + 2 + (j - A.length - 1) = j + 1 := by omega
    rw [e2] at hR
    rw [hL, hR]

/-- Full decomposition of a successful `mergeWithPrevious`. -/
theorem mergeWithPrevious_parts {α : Type} {regen : Split → α}
    {splits : List Split} {outs : List α} {index : Nat}
    {splits' : List Split} {outs' : List α}
    (h : mergeWithPrevious regen splits outs index = some (splits', outs')) :
    ∃ p c,
      0 < index ∧ index < splits.length ∧
        splits[index - 1]? = some p ∧ splits[index]? = some c ∧
        splits = splits.take (index - 1) ++ p :: c :: splits.drop (index + 1) ∧
        splits' = splits.take (index - 1) ++
          ⟨p.instrument, p.startPage, c.endPage, p.pages ++ c.pages⟩ ::
          splits.drop (index + 1) ∧
        outs' = (outs.eraseIdx index).set (index - 1)
          (regen ⟨p.instrument, p.startPage, c.endPage, p.pages ++ c.pages⟩) ∧
        (splits.take (index - 1)).length = index - 1 := by
  obtain ⟨p, c, hne, hp, hc, h1, h2⟩ := mergeWithPrevious_some h
  have hpos : 0 < index := Nat.pos_of_ne_zero hne
  have hlt : index < splits.length := by
    by_contra hge
    rw [List.getElem?_eq_none (by omega)] at hc
    exact Option.noConfusion hc
  have hidx : index - 1 + 1 = index := Nat.succ_pred_eq_of_pos hpos
  have hb : splits[index - 1 + 1]? = some c := by rw [hidx]; exact hc
  obtain ⟨hdec, hset, -, hlen⟩ :=
    splice_decomp (index - 1) splits p c
      ⟨p.instrument, p.startPage, c.endPage, p.pages ++ c.pages⟩ hp hb
  have e2 : index - 1 + 2 = index + 1 := by omega
  rw [hidx, e2] at hset
  rw [e2] at hdec
  have h1' : splits' = (splits.set (index - 1)
      ⟨p.instrument, p.startPage, c.endPage, p.pages ++ c.pages⟩).eraseIdx index := h1
  have h2' : outs' = (outs.eraseIdx index).set (index - 1)
      (regen ⟨p.instrument, p.startPage, c.endPage, p.pages ++ c.pages⟩) := h2
  exact ⟨p, c, hpos, hlt, hp, hc, hdec, h1'.trans hset, h2', hlen⟩

/-- Full decomposition of a successful `mergeWithNext`. -/
theorem mergeWithNext_parts {α : Type} {regen : Split → α}
    {splits : List Split} {outs : List α} {index : Nat}
    {splits' : List Split} {outs' : List α}
    (h : mergeWithNext regen splits outs index = some (splits', outs')) :
    ∃ c nx,
      index + 1 < splits.length ∧
        splits[index]? = some c ∧ splits[index + 1]? = some nx ∧
        splits = splits.take index ++ c :: nx :: splits.drop (index + 2) ∧
        splits' = splits.take index ++
          ⟨nx.instrument, c.startPage, nx.endPage, c.pages ++ nx.pages⟩ ::
          splits.drop (index + 2) ∧
        outs' = (outs.eraseIdx (index + 1)).set index
          (regen ⟨nx.instrument, c.startPage, nx.endPage, c.pages ++ nx.pages⟩) ∧
        (splits.take index).length = index := by
  obtain ⟨c, nx, hne, hc, hn, h1, h2⟩ := mergeWithNext_some h
  have hlt : index + 1 < splits.length := by
    by_contra hge
    rw [List.getElem?_eq_none (by omega)] at hn
    exact Option.noConfusion hn
  obtain ⟨hdec, hset, -, hlen⟩ :=
    splice_decomp index splits c nx
      ⟨nx.instrument, c.startPage, nx.endPage, c.pages ++ nx.pages⟩ hc hn
  have h1' : splits' = (splits.set index
      ⟨nx.instrument, c.startPage, nx.endPage, c.pages ++ nx.pages⟩).eraseIdx (index + 1) := h1
  have h2' : outs' = (outs.eraseIdx (index + 1)).set index
      (regen ⟨nx.instrument, c.startPage, nx.endPage, c.pages ++ nx.pages⟩) := h2
  exact ⟨c, nx, hlt, hc, hn, hdec, h1'.trans hset, h2', hlen⟩

/-- C4: merging (in either direction) a split list satisfying the coverage
invariant — well-formed contiguous splits whose pages concatenate to
`1, ..., n` — yields a list that still satisfies the invariant, with the
merged split's `startPage`/`endPage` again matching the first and last of
its merged pages, and exactly one split fewer. -/
theorem merge_preserves_coverage {α : Type} (regen : Split → α)
    (splits : List Split) (outs : List α) (n index : Nat)
    (splits' : List Split) (outs' : List α)
    (hwf : sessionWfB splits n = true) :
    (mergeWithPrevious regen splits outs index = some (splits', outs') →
        sessionWfB splits' n = true ∧ splits'.length + 1 = splits.length) ∧
      (mergeWithNext regen splits outs index = some (splits', outs') →
        sessionWfB splits' n = true ∧ splits'.length + 1 = splits.length) := by
  constructor
  · intro h
    obtain ⟨p, c, -, -, -, -, hdec, hs', -, -⟩ := mergeWithPrevious_parts h
    constructor
    · rw [hs']
      rw [hdec] at hwf
      exact sessionWf_merge_core _ _ p c n p.instrument hwf
    · have hl := length_splice (splits.take (index - 1)) (splits.drop (index + 1)) p c
        ⟨p.instrument, p.startPage, c.endPage, p.pages ++ c.pages⟩
      rw [← hdec, ← hs'] at hl
      exact hl
  · intro h
    obtain ⟨c, nx, -, -, -, hdec, hs', -, -⟩ := mergeWithNext_parts h
    constructor
    · rw [hs']
      rw [hdec] at hwf
      exact sessionWf_merge_core _ _ c nx n nx.instrument hwf
    · have hl := length_splice (splits.take index) (splits.drop (index + 2)) c nx
        ⟨nx.instrument, c.startPage, nx.endPage, c.pages ++ nx.pages⟩
      rw [← hdec, ← hs'] at hl
      exact hl

/-- C5: both boundary merges are rejected without touching the session:
`mergeWithPrevious 0` and `mergeWithNext lastIndex` take the guard's early
return, modelled as `none` — no new split list is produced and, the
operations being pure, the input lists are left exactly as they were. -/
theorem merge_boundary_noop {α : Type} (regen : Split → α)
    (splits : List Split) (outs : List α) (h : splits ≠ []) :
    mergeWithPrevious regen splits outs 0 = none ∧
      mergeWithNext regen splits outs (splits.length - 1) = none := by
  constructor
  · rw [mergeWithPrevious]
    simp
  · rw [mergeWithNext]
    rw [if_pos]
    have := List.length_pos.mpr h
    omega

/-- C9 (frame effect): a successful merge changes only the merged split:
every position below the splice point keeps exactly its old split
(instrument, startPage, endPage and pages all unchanged), every higher
position holds exactly the split that was one place further down, and
exactly one split is removed. -/
theorem merge_frame {α : Type} (regen : Split → α)
    (splits : List Split) (outs : List α) (index : Nat)
    (splits' : List Split) (outs' : List α) :
    (mergeWithPrevious regen splits outs index = some (splits', outs') →
        splits'.length + 1 = splits.length ∧
          (∀ j, j + 1 < index → splits'[j]? = splits[j]?) ∧
          (∀ j, index ≤ j → splits'[j]? = splits[j + 1]?)) ∧
      (mergeWithNext regen splits outs index = some (splits', outs') →
        splits'.length + 1 = splits.length ∧
          (∀ j, j < index → splits'[j]? = splits[j]?) ∧
          (∀ j, index + 1 ≤ j → splits'[j]? = splits[j + 1]?)) := by
  constructor
  · intro h
    obtain ⟨p, c, hpos, -, -, -, hdec, hs', -, hlen⟩ := mergeWithPrevious_parts h
    obtain ⟨hlow, hhigh⟩ := splice_frame (splits.take (index - 1)) (splits.drop (index + 1))
      p c ⟨p.instrument, p.startPage, c.endPage, p.pages ++ c.pages⟩ (index - 1) hlen
    refine ⟨?_, ?_, ?_⟩
    · have hl := length_splice (splits.take (index - 1)) (splits.drop (index + 1)) p c
        ⟨p.instrument, p.startPage, c.endPage, p.pages ++ c.pages⟩
      rw [← hdec, ← hs'] at hl
      exact hl
    · intro j hj
      rw [hs']
      conv_rhs => rw [hdec]
      exact hlow j (by omega)
    · intro j hj
      rw [hs']
      conv_rhs => rw [hdec]
      exact hhigh j (by omega)
  · intro h
    obtain ⟨c, nx, -, -, -, hdec, hs', -, hlen⟩ := mergeWithNext_parts h
    obtain ⟨hlow, hhigh⟩ := splice_frame (splits.take index) (splits.drop (index + 2))
      c nx ⟨nx.instrument, c.startPage, nx.endPage, c.pages ++ nx.pages⟩ index hlen
    refine ⟨?_, ?_, ?_⟩
    · have hl := length_splice (splits.take index) (splits.drop (index + 2)) c nx
        ⟨nx.instrument, c.startPage, nx.endPage, c.pages ++ nx.pages⟩
      rw [← hdec, ← hs'] at hl
      exact hl
    · intro j hj
      rw [hs']
      conv_rhs => rw [hdec]
      exact hlow j hj
    · intro j hj
      rw [hs']
      conv_rhs => rw [hdec]
      exact hhigh j hj

/-- Witness: `merge_preserves_coverage` on a concrete two-split session,
merging up at index 1. -/
theorem merge_preserves_coverage_witness :
    sessionWfB [⟨"A", 1, 2, [1, 2]⟩, ⟨"B", 3, 4, [3, 4]⟩] 4 = true ∧
      (sessionWfB [⟨"A", 1, 4, [1, 2, 3, 4]⟩] 4 = true ∧
        [(⟨"A", 1, 4, [1, 2, 3, 4]⟩ : Split)].length + 1 =
          [(⟨"A", 1, 2, [1, 2]⟩ : Split), ⟨"B", 3, 4, [3, 4]⟩].length) :=
  ⟨by decide,
    (merge_preserves_coverage (fun _ => ()) [⟨"A", 1, 2, [1, 2]⟩, ⟨"B", 3, 4, [3, 4]⟩]
        [(), ()] 4 1 [⟨"A", 1, 4, [1, 2, 3, 4]⟩] [()] (by decide)).1 (by decide)⟩

/-- Witness: `merge_boundary_noop` on a concrete one-split session. -/
theorem merge_boundary_noop_witness :
    ([(⟨"Solo", 1, 1, [1]⟩ : Split)] ≠ []) ∧
      (mergeWithPrevious (fun _ => ()) [⟨"Solo", 1, 1, [1]⟩] [()] 0 = none ∧
        mergeWithNext (fun _ => ()) [⟨"Solo", 1, 1, [1]⟩] [()]
          ([(⟨"Solo", 1, 1, [1]⟩ : Split)].length - 1) = none) :=
  ⟨by decide, merge_boundary_noop (fun _ => ()) [⟨"Solo", 1, 1, [1]⟩] [()] (by decide)⟩

/-- Witness: the merge-up half of `merge_frame` on a concrete three-split
session, merging at index 1: split 0 is untouched and split 2 moves to
position 1. -/
theorem merge_frame_witness :
    [(⟨"A", 1, 4, [1, 2, 3, 4]⟩ : Split), ⟨"C", 5, 6, [5, 6]⟩].length + 1 =
        [(⟨"A", 1, 2, [1, 2]⟩ : Split), ⟨"B", 3, 4, [3, 4]⟩, ⟨"C", 5, 6, [5, 6]⟩].length ∧
      (∀ j, j + 1 < 1 →
        [(⟨"A", 1, 4, [1, 2, 3, 4]⟩ : Split), ⟨"C", 5, 6, [5, 6]⟩][j]? =
          [(⟨"A", 1, 2, [1, 2]⟩ : Split), ⟨"B", 3, 4, [3, 4]⟩, ⟨"C", 5, 6, [5, 6]⟩][j]?) ∧
      (∀ j, 1 ≤ j →
        [(⟨"A", 1, 4, [1, 2, 3, 4]⟩ : Split), ⟨"C", 5, 6, [5, 6]⟩][j]? =
          [(⟨"A", 1, 2, [1, 2]⟩ : Split), ⟨"B", 3, 4, [3, 4]⟩, ⟨"C", 5, 6, [5, 6]⟩][j + 1]?) :=
  (merge_frame (fun _ => ())
      [⟨"A", 1, 2, [1, 2]⟩, ⟨"B", 3, 4, [3, 4]⟩, ⟨"C", 5, 6, [5, 6]⟩] [(), (), ()] 1
      [⟨"A", 1, 4, [1, 2, 3, 4]⟩, ⟨"C", 5, 6, [5, 6]⟩] [(), ()]).1 (by decide)

/-- C10: when the `generatedPDFs` list is aligned with `detectedSplits`
(equal lengths), every successful merge keeps them aligned: both lists lose
exactly the one spliced entry, the untouched outputs keep their pairing
with their splits (same index shifts on both lists), and the surviving
merged position holds the regenerated output of the merged split. -/
theorem merge_outputs_aligned {α : Type} (regen : Split → α)
    (splits : List Split) (outs : List α) (index : Nat)
    (splits' : List Split) (outs' : List α)
    (hlen0 : outs.length = splits.length) :
    (mergeWithPrevious regen splits outs index = some (splits', outs') →
        outs'.length = splits'.length ∧ splits'.length + 1 = splits.length ∧
          (∀ j, j + 1 < index → outs'[j]? = outs[j]?) ∧
          (∀ j, index ≤ j → outs'[j]? = outs[j + 1]?) ∧
          (∀ s, splits'[index - 1]? = some s → outs'[index - 1]? = some (regen s))) ∧
      (mergeWithNext regen splits outs index = some (splits', outs') →
        outs'.length = splits'.length ∧ splits'.length + 1 = splits.length ∧
          (∀ j, j < index → outs'[j]? = outs[j]?) ∧
          (∀ j, index + 1 ≤ j → outs'[j]? = outs[j + 1]?) ∧
          (∀ s, splits'[index]? = some s → outs'[index]? = some (regen s))) := by
  constructor
  · intro h
    obtain ⟨p, c, hpos, hlt, -, -, hdec, hs', ho', hlen⟩ := mergeWithPrevious_parts h
    have hidx : index - 1 + 1 = index := Nat.succ_pred_eq_of_pos hpos
    cases ho1 : outs[index - 1]? with
    | none =>
      rw [List.getElem?_eq_none_iff] at ho1
      omega
    | some o1 =>
      cases ho2 : outs[index - 1 + 1]? with
      | none =>
        rw [List.getElem?_eq_none_iff] at ho2
        omega
      | some o2 =>
        obtain ⟨hdecO, -, heraseO, hlenO⟩ :=
          splice_decomp (index - 1) outs o1 o2
            (regen ⟨p.instrument, p.startPage, c.endPage, p.pages ++ c.pages⟩) ho1 ho2
        have e2 : index - 1 + 2 = index + 1 := by omega
        rw [hidx, e2] at heraseO
        rw [e2] at hdecO
        have houts' : outs' = outs.take (index - 1) ++
            regen ⟨p.instrument, p.startPage, c.endPage, p.pages ++ c.pages⟩ ::
            outs.drop (index + 1) := ho'.trans heraseO
        obtain ⟨hlow, hhigh⟩ := splice_frame (outs.take (index - 1)) (outs.drop (index + 1))
          o1 o2 (regen ⟨p.instrument, p.startPage, c.endPage, p.pages ++ c.pages⟩)
          (index - 1) hlenO
        refine ⟨?_, ?_, ?_, ?_, ?_⟩
        · rw [hs', houts']
          simp [List.length_append, hlen, hlenO, List.length_drop]
          omega
        · have hl := length_splice (splits.take (index - 1)) (splits.drop (index + 1)) p c
            ⟨p.instrument, p.startPage, c.endPage, p.pages ++ c.pages⟩
          rw [← hdec, ← hs'] at hl
          exact hl
        · intro j hj
          rw [houts']
          conv_rhs => rw [hdecO]
          exact hlow j (by omega)
        · intro j hj
          rw [houts']
          conv_rhs => rw [hdecO]
          exact hhigh j (by omega)
        · intro s hs
          rw [hs'] at hs
          have hM := getElem?_append_cons_self (splits.take (index - 1))
            (splits.drop (index + 1))
            (⟨p.instrument, p.startPage, c.endPage, p.pages ++ c.pages⟩ : Split)
          rw [hlen] at hM
          rw [hM] at hs
          obtain rfl := (Option.some.injEq _ _).mp hs
          have hO := getElem?_append_cons_self (outs.take (index - 1))
            (outs.drop (index + 1))
            (regen ⟨p.instrument, p.startPage, c.endPage, p.pages ++ c.pages⟩)
          rw [hlenO] at hO
          rw [houts']
          exact hO
  · intro h
    obtain ⟨c, nx, hlt, -, -, hdec, hs', ho', hlen⟩ := mergeWithNext_parts h
    cases ho1 : outs[index]? with
    | none =>
      rw [List.getElem?_eq_none_iff] at ho1
      omega
    | some o1 =>
      cases ho2 : outs[index + 1]? with
      | none =>
        rw [List.getElem?_eq_none_iff] at ho2
        omega
      | some o2 =>
        obtain ⟨hdecO, -, heraseO, hlenO⟩ :=
          splice_decomp index outs o1 o2
            (regen ⟨nx.instrument, c.startPage, nx.endPage, c.pages ++ nx.pages⟩) ho1 ho2
        have houts' : outs' = outs.take index ++
            regen ⟨nx.instrument, c.startPage, nx.endPage, c.pages ++ nx.pages⟩ ::
            outs.drop (index + 2) := ho'.trans heraseO
        obtain ⟨hlow, hhigh⟩ := splice_frame (outs.take index) (outs.drop (index + 2))
          o1 o2 (regen ⟨nx.instrument, c.startPage, nx.endPage, c.pages ++ nx.pages⟩)
          index hlenO
        refine ⟨?_, ?_, ?_, ?_, ?_⟩
        · rw [hs', houts']
          simp [List.length_append, hlen, hlenO, List.length_drop]
          omega
        · have hl := length_splice (splits.take index) (splits.drop (index + 2)) c nx
            ⟨nx.instrument, c.startPage, nx.endPage, c.pages ++ nx.pages⟩
          rw [← hdec, ← hs'] at hl
          exact hl
        · intro j hj
          rw [houts']
          conv_rhs => rw [hdecO]
          exact hlow j hj
        · intro j hj
          rw [houts']
          conv_rhs => rw [hdecO]
          exact hhigh j hj
        · intro s hs
          rw [hs'] at hs
          have hM := getElem?_append_cons_self (splits.take index)
            (splits.drop (index + 2))
            (⟨nx.instrument, c.startPage, nx.endPage, c.pages ++ nx.pages⟩ : Split)
          rw [hlen] at hM
          rw [hM] at hs
          obtain rfl := (Option.some.injEq _ _).mp hs
          have hO := getElem?_append_cons_self (outs.take index)
            (outs.drop (index + 2))
            (regen ⟨nx.instrument, c.startPage, nx.endPage, c.pages ++ nx.pages⟩)
          rw [hlenO] at hO
          rw [houts']
          exact hO

/-- Witness: the merge-up half of `merge_outputs_aligned` on a concrete
two-split session whose outputs are strings, with `regen` taking the
instrument name. -/
theorem merge_outputs_aligned_witness :
    (["a0", "a1"] : List String).length =
        [(⟨"A", 1, 2, [1, 2]⟩ : Split), ⟨"B", 3, 4, [3, 4]⟩].length ∧
      ((["A"] : List String).length = [(⟨"A", 1, 4, [1, 2, 3, 4]⟩ : Split)].length ∧
        [(⟨"A", 1, 4, [1, 2, 3, 4]⟩ : Split)].length + 1 =
          [(⟨"A", 1, 2, [1, 2]⟩ : Split), ⟨"B", 3, 4, [3, 4]⟩].length ∧
        (∀ j, j + 1 < 1 → (["A"] : List String)[j]? = (["a0", "a1"] : List String)[j]?) ∧
        (∀ j, 1 ≤ j → (["A"] : List String)[j]? = (["a0", "a1"] : List String)[j + 1]?) ∧
        (∀ s, [(⟨"A", 1, 4, [1, 2, 3, 4]⟩ : Split)][0]? = some s →
          (["A"] : List String)[0]? = some s.instrument)) :=
  ⟨by decide,
    (merge_outputs_aligned (fun s => s.instrument)
        [⟨"A", 1, 2, [1, 2]⟩, ⟨"B", 3, 4, [3, 4]⟩] ["a0", "a1"] 1
        [⟨"A", 1, 4, [1, 2, 3, 4]⟩] ["A"] (by decide)).1 (by decide)⟩

/-- C6 counterexample: `handleInstrumentNameChange` stores the trimmed
value, so renaming to `" Flute "` leaves the split named `"Flute"`, not the
string that was passed in. -/
theorem handleInstrumentNameChange_trim_cex :
    handleInstrumentNameChange (fun _ => ()) [⟨"Cornet", 1, 2, [1, 2]⟩] [()] 0 " Flute " =
        some ([⟨"Flute", 1, 2, [1, 2]⟩], [()]) ∧
      (" Flute " : String) ≠ "Flute" :=
  ⟨by decide, by decide⟩

/-- C6 (amended): when the new name is non-empty after trimming, the rename
succeeds and sets the split's instrument to the trimmed new name, changing
no split's page membership (pages, startPage and endPage of every split are
untouched); when the new name trims to empty the operation is a rejected
no-op and every split, in particular its instrument, is unchanged. -/
theorem handleInstrumentNameChange_correct {α : Type} (regen : Split → α)
    (splits : List Split) (outs : List α) (index : Nat) (newName : String)
    (s : Split) (hs : splits[index]? = some s) :
    (jsTrim newName ≠ "" →
        handleInstrumentNameChange regen splits outs index newName =
            some (splits.set index { s with instrument := jsTrim newName },
                  outs.set index (regen { s with instrument := jsTrim newName })) ∧
          (splits.set index { s with instrument := jsTrim newName })[index]? =
            some { s with instrument := jsTrim newName } ∧
          (∀ j : Nat,
            ((splits.set index { s with instrument := jsTrim newName })[j]?).map Split.pages =
                (splits[j]?).map Split.pages ∧
              ((splits.set index
                  { s with instrument := jsTrim newName })[j]?).map Split.startPage =
                (splits[j]?).map Split.startPage ∧
              ((splits.set index
                  { s with instrument := jsTrim newName })[j]?).map Split.endPage =
                (splits[j]?).map Split.endPage)) ∧
      (jsTrim newName = "" →
        handleInstrumentNameChange regen splits outs index newName = none) := by
  have hlt : index < splits.length := by
    by_contra hge
    rw [List.getElem?_eq_none (by omega)] at hs
    exact Option.noConfusion hs
  constructor
  · intro hne
    refine ⟨?_, ?_, ?_⟩
    · rw [handleInstrumentNameChange]
      simp only [if_neg hne, hs]
    · exact List.getElem?_set_self hlt
    · intro j
      by_cases hij : index = j
      · subst hij
        rw [List.getElem?_set_self hlt, hs]
        exact ⟨rfl, rfl, rfl⟩
      · rw [List.getElem?_set_ne hij]
        exact ⟨rfl, rfl, rfl⟩
  · intro he
    rw [handleInstrumentNameChange]
    simp only [he, if_pos]

/-- Witness: `handleInstrumentNameChange_correct` on a concrete one-split
session renamed to `"  Flugel  "`, which trims to `"Flugel"`. -/
theorem handleInstrumentNameChange_correct_witness :
    ([(⟨"Cornet", 1, 2, [1, 2]⟩ : Split)][0]? = some ⟨"Cornet", 1, 2, [1, 2]⟩) ∧
      (jsTrim "  Flugel  " ≠ "" →
        handleInstrumentNameChange (fun _ => ()) [⟨"Cornet", 1, 2, [1, 2]⟩] [()] 0
            "  Flugel  " =
            some ([(⟨"Cornet", 1, 2, [1, 2]⟩ : Split)].set 0
                    ⟨jsTrim "  Flugel  ", 1, 2, [1, 2]⟩,
                  [()].set 0 ()) ∧
          ([(⟨"Cornet", 1, 2, [1, 2]⟩ : Split)].set 0
              ⟨jsTrim "  Flugel  ", 1, 2, [1, 2]⟩)[0]? =
            some ⟨jsTrim "  Flugel  ", 1, 2, [1, 2]⟩ ∧
          (∀ j : Nat,
            (([(⟨"Cornet", 1, 2, [1, 2]⟩ : Split)].set 0
                ⟨jsTrim "  Flugel  ", 1, 2, [1, 2]⟩)[j]?).map Split.pages =
                ([(⟨"Cornet", 1, 2, [1, 2]⟩ : Split)][j]?).map Split.pages ∧
              (([(⟨"Cornet", 1, 2, [1, 2]⟩ : Split)].set 0
                  ⟨jsTrim "  Flugel  ", 1, 2, [1, 2]⟩)[j]?).map Split.startPage =
                ([(⟨"Cornet", 1, 2, [1, 2]⟩ : Split)][j]?).map Split.startPage ∧
              (([(⟨"Cornet", 1, 2, [1, 2]⟩ : Split)].set 0
                  ⟨jsTrim "  Flugel  ", 1, 2, [1, 2]⟩)[j]?).map Split.endPage =
                ([(⟨"Cornet", 1, 2, [1, 2]⟩ : Split)][j]?).map Split.endPage)) ∧
      (jsTrim "  Flugel  " = "" →
        handleInstrumentNameChange (fun _ => ()) [⟨"Cornet", 1, 2, [1, 2]⟩] [()] 0
          "  Flugel  " = none) :=
  ⟨by decide,
    handleInstrumentNameChange_correct (fun _ => ()) [⟨"Cornet", 1, 2, [1, 2]⟩] [()] 0
      "  Flugel  " ⟨"Cornet", 1, 2, [1, 2]⟩ (by decide)⟩

/-! Lemmas about the Segmenter's accumulating pass. -/

theorem segmentAux_flatten (labels : List ResolvedLabel) (cur : Split) :
    ((segmentAux cur labels).map Split.pages).flatten =
      cur.pages ++ labels.map ResolvedLabel.pageIndex := by
  induction labels generalizing cur with
  | nil => simp [segmentAux]
  | cons l rest ih =>
    rw [segmentAux]
    by_cases h : l.instrument = cur.instrument
    · rw [if_pos h, ih]
      simp [List.append_assoc]
    · rw [if_neg h]
      simp [ih]

theorem segmentAux_pageLabels (labels : List ResolvedLabel) (cur : Split) :
    pageLabels (segmentAux cur labels) =
      (cur.pages.map fun _ => cur.instrument) ++ labels.map ResolvedLabel.instrument := by
  induction labels generalizing cur with
  | nil => simp [segmentAux, pageLabels]
  | cons l rest ih =>
    rw [segmentAux]
    by_cases h : l.instrument = cur.instrument
    · rw [if_pos h, ih]
      simp [h, List.append_assoc]
    · rw [if_neg h]
      simp only [pageLabels] at ih ⊢
      simp only [List.map_cons, List.flatten_cons, ih]
      simp

theorem segmentAux_head_instrument (labels : List ResolvedLabel) (cur : Split) :
    ((segmentAux cur labels).map Split.instrument).head? = some cur.instrument := by
  induction labels generalizing cur with
  | nil => simp [segmentAux]
  | cons l rest ih =>
    rw [segmentAux]
    by_cases h : l.instrument = cur.instrument
    · rw [if_pos h]
      exact ih _
    · rw [if_neg h]
      simp

theorem segmentAux_ne_nil (labels : List ResolvedLabel) (cur : Split) :
    segmentAux cur labels ≠ [] := by
  induction labels generalizing cur with
  | nil => simp [segmentAux]
  | cons l rest ih =>
    rw [segmentAux]
    by_cases h : l.instrument = cur.instrument
    · rw [if_pos h]
      exact ih _
    · rw [if_neg h]
      simp

theorem segmentAux_chain (labels : List ResolvedLabel) (cur : Split) :
    List.Chain' (fun a b => a ≠ b) ((segmentAux cur labels).map Split.instrument) := by
  induction labels generalizing cur with
  | nil => simp [segmentAux]
  | cons l rest ih =>
    rw [segmentAux]
    by_cases h : l.instrument = cur.instrument
    · rw [if_pos h]
      exact ih _
    · rw [if_neg h]
      rw [List.map_cons, List.chain'_cons']
      constructor
      · intro b hb
        rw [segmentAux_head_instrument] at hb
        have hb' : l.instrument = b := by simpa using hb
        subst hb'
        intro heq
        exact h heq.symm
      · exact ih _

/-- C7: for every non-empty resolved-label sequence whose page indices are
`1, ..., N`, the Segmenter returns at least one split, the splits' pages
concatenated in order are exactly `1, ..., N`, every page keeps the
instrument of its own resolved label, and adjacent splits carry different
instruments — so a new split is started exactly where the instrument string
differs (case-sensitive) from the open split's instrument. -/
theorem segment_coverage (labels : List ResolvedLabel)
    (hne : labels ≠ [])
    (hidx : labels.map ResolvedLabel.pageIndex = List.range' 1 labels.length) :
    1 ≤ (segment labels).length ∧
      ((segment labels).map Split.pages).flatten = List.range' 1 labels.length ∧
      pageLabels (segment labels) = labels.map ResolvedLabel.instrument ∧
      List.Chain' (fun a b => a ≠ b) ((segment labels).map Split.instrument) := by
  cases labels with
  | nil => exact absurd rfl hne
  | cons l rest =>
    rw [segment]
    refine ⟨?_, ?_, ?_, ?_⟩
    · have h := segmentAux_ne_nil rest ⟨l.instrument, l.pageIndex, l.pageIndex, [l.pageIndex]⟩
      have := List.length_pos.mpr h
      omega
    · rw [segmentAux_flatten]
      rw [List.map_cons] at hidx
      simpa using hidx
    · rw [segmentAux_pageLabels]
      simp
    · exact segmentAux_chain rest _

/-- Witness: `segment_coverage` on two concrete resolved labels. -/
theorem segment_coverage_witness :
    ([(⟨1, "Cornet", true⟩ : ResolvedLabel), ⟨2, "Repiano", false⟩] ≠ []) ∧
      ([(⟨1, "Cornet", true⟩ : ResolvedLabel), ⟨2, "Repiano", false⟩].map
          ResolvedLabel.pageIndex =
        List.range' 1
          [(⟨1, "Cornet", true⟩ : ResolvedLabel), ⟨2, "Repiano", false⟩].length) ∧
      (1 ≤ (segment [⟨1, "Cornet", true⟩, ⟨2, "Repiano", false⟩]).length ∧
        ((segment [⟨1, "Cornet", true⟩, ⟨2, "Repiano", false⟩]).map Split.pages).flatten =
          List.range' 1
            [(⟨1, "Cornet", true⟩ : ResolvedLabel), ⟨2, "Repiano", false⟩].length ∧
        pageLabels (segment [⟨1, "Cornet", true⟩, ⟨2, "Repiano", false⟩]) =
          [(⟨1, "Cornet", true⟩ : ResolvedLabel), ⟨2, "Repiano", false⟩].map
            ResolvedLabel.instrument ∧
        List.Chain' (fun a b => a ≠ b)
          ((segment [⟨1, "Cornet", true⟩, ⟨2, "Repiano", false⟩]).map Split.instrument)) :=
  ⟨by decide, by decide,
    segment_coverage [⟨1, "Cornet", true⟩, ⟨2, "Repiano", false⟩] (by decide) (by decide)⟩

/-- C8: a page with absent raw text inherits both the instrument and the
matched flag of the previous resolved page; the label sequence
`["Cornet", None, None, "Trombone"]` therefore segments into exactly the
two splits `Cornet` on pages 1-3 and `Trombone` on page 4; and a very first
page with absent raw text resolves to the unmatched empty instrument, which
the Segmenter still groups into a split rather than dropping. -/
theorem resolve_continuation :
    (∀ (matchCatalog : String → Option String) (normalize : String → String)
        (prev : ResolvedLabel) (i : Nat),
      resolve matchCatalog normalize none (some prev) i =
        ⟨i, prev.instrument, prev.matched⟩) ∧
      segment (resolveAll demoCatalog id [some "Cornet", none, none, some "Trombone"]) =
        [⟨"Cornet", 1, 3, [1, 2, 3]⟩, ⟨"Trombone", 4, 4, [4]⟩] ∧
      (∀ (matchCatalog : String → Option String) (normalize : String → String) (i : Nat),
        resolve matchCatalog normalize none none i = ⟨i, "", false⟩) ∧
      segment [resolve demoCatalog id none none 1] = [⟨"", 1, 1, [1]⟩] :=
  ⟨fun _ _ _ _ => rfl, by decide, fun _ _ _ => rfl, by decide⟩

end MusicPdf
